import Mathlib

/-!
Shallow embedding of `src/lambda_function.py` (s3-pinecone-processor).

Text is modelled as `List Char`, byte content as `List Nat`.  The external
collaborators (S3 fetch, text extraction libraries, the OpenAI embedding
service, the Pinecone index) are modelled as an explicit context `Ctx` of
fallible functions; the pipeline records its outward-visible actions
(embedding-service calls, index upserts, error logs) as an `Effect` trace.

The chunking loop of `chunk_text` is modelled with explicit fuel because the
source loop does not terminate when `overlap >= chunk_size`; `none` means the
loop completed no finite number of iterations (divergence).
-/

namespace S3PineconeProcessor

/-- ASCII whitespace as recognised by Python `str.strip` / `str.isspace`
(faithful for ASCII text). -/
def isSpace (c : Char) : Bool :=
  c = ' ' || c = '\t' || c = '\n' || c = '\r' || c = '\x0b' || c = '\x0c'

/-- Python `chunk.strip()` is falsy iff the string is empty or every
character is whitespace. -/
def isBlank (l : List Char) : Bool := l.all isSpace

/-- The loop body of `chunk_text` (lines 85-92): take `text[start:start+size]`,
keep it when `chunk.strip()` is truthy, advance `start` by `size - overlap`.
Fuel bounds the number of iterations; `none` means the loop was still running
when the fuel ran out. -/
def chunkGo (text : List Char) (size overlap : Nat) : Nat → Nat → Option (List (List Char))
  | 0, start => if start < text.length then none else some []
  | fuel+1, start =>
      if start < text.length then
        match chunkGo text size overlap fuel (start + size - overlap) with
        | none => none
        | some rest =>
            some (if isBlank ((text.drop start).take size) then rest
                  else ((text.drop start).take size) :: rest)
      else some []

/-- `chunk_text(text, chunk_size=1000, overlap=200)` (lines 79-94).
When `overlap < size` the loop makes at most `text.length` iterations, so
`text.length + 1` fuel is always enough and the result is `some _`. -/
def chunk_text (text : List Char) (size : Nat := 1000) (overlap : Nat := 200) :
    Option (List (List Char)) :=
  chunkGo text size overlap (text.length + 1) 0

/-- The sequence of window start offsets visited by the `chunk_text` loop,
with the same fuel discipline. -/
def windowStartsGo (len size overlap : Nat) : Nat → Nat → Option (List Nat)
  | 0, start => if start < len then none else some []
  | fuel+1, start =>
      if start < len then
        match windowStartsGo len size overlap fuel (start + size - overlap) with
        | none => none
        | some rest => some (start :: rest)
      else some []

/-- Window start offsets visited for a text of length `len`. -/
def windowStarts (len size overlap : Nat) : Option (List Nat) :=
  windowStartsGo len size overlap (len + 1) 0

lemma chunkGo_stop {text : List Char} {size overlap fuel start : Nat}
    (h : ¬ start < text.length) :
    chunkGo text size overlap fuel start = some [] := by
  cases fuel <;> simp [chunkGo, h]

lemma chunkGo_step {text : List Char} {size overlap fuel start : Nat}
    (h : start < text.length) :
    chunkGo text size overlap (fuel+1) start =
      match chunkGo text size overlap fuel (start + size - overlap) with
      | none => none
      | some rest =>
          some (if isBlank ((text.drop start).take size) then rest
                else ((text.drop start).take size) :: rest) := by
  simp [chunkGo, h]

lemma windowStartsGo_stop {len size overlap fuel start : Nat}
    (h : ¬ start < len) :
    windowStartsGo len size overlap fuel start = some [] := by
  cases fuel <;> simp [windowStartsGo, h]

lemma windowStartsGo_step {len size overlap fuel start : Nat}
    (h : start < len) :
    windowStartsGo len size overlap (fuel+1) start =
      match windowStartsGo len size overlap fuel (start + size - overlap) with
      | none => none
      | some rest => some (start :: rest) := by
  simp [windowStartsGo, h]

/-- The retained chunks are exactly the non-blank windows, in order. -/
lemma chunkGo_eq_windows (text : List Char) (size overlap : Nat) :
    ∀ fuel start, chunkGo text size overlap fuel start =
      (windowStartsGo text.length size overlap fuel start).map
        (fun ss => (ss.map (fun st => (text.drop st).take size)).filter
          (fun c => !isBlank c)) := by
  intro fuel
  induction fuel with
  | zero =>
      intro start
      by_cases h : start < text.length <;> simp [chunkGo, windowStartsGo, h]
  | succ f ih =>
      intro start
      by_cases h : start < text.length
      · rw [chunkGo_step h, windowStartsGo_step h, ih]
        cases hw : windowStartsGo text.length size overlap f (start + size - overlap) with
        | none => simp
        | some rest =>
            simp only [Option.map_some', List.map_cons, List.filter_cons]
            by_cases hb : isBlank ((text.drop start).take size) <;> simp [hb]
      · simp [chunkGo_stop h, windowStartsGo_stop h]

lemma chunk_text_eq_windows (text : List Char) (size overlap : Nat) :
    chunk_text text size overlap =
      (windowStarts text.length size overlap).map
        (fun ss => (ss.map (fun st => (text.drop st).take size)).filter
          (fun c => !isBlank c)) := by
  unfold chunk_text windowStarts
  exact chunkGo_eq_windows text size overlap (text.length + 1) 0

/-- With `overlap < size` the loop terminates within `len - start` iterations. -/
lemma windowStartsGo_some {len size overlap : Nat} (h : overlap < size) :
    ∀ fuel start, len - start ≤ fuel →
      ∃ ss, windowStartsGo len size overlap fuel start = some ss := by
  intro fuel
  induction fuel with
  | zero =>
      intro start hf
      have : ¬ start < len := by omega
      exact ⟨[], windowStartsGo_stop this⟩
  | succ f ih =>
      intro start hf
      by_cases hs : start < len
      · obtain ⟨rest, hrest⟩ := ih (start + size - overlap) (by omega)
        exact ⟨start :: rest, by rw [windowStartsGo_step hs, hrest]⟩
      · exact ⟨[], windowStartsGo_stop hs⟩

lemma windowStarts_some {len size overlap : Nat} (h : overlap < size) :
    ∃ ss, windowStarts len size overlap = some ss :=
  windowStartsGo_some h (len + 1) 0 (by omega)

lemma chunk_text_some {text : List Char} {size overlap : Nat} (h : overlap < size) :
    ∃ l, chunk_text text size overlap = some l := by
  obtain ⟨ss, hss⟩ := @windowStarts_some text.length size overlap h
  exact ⟨_, by rw [chunk_text_eq_windows, hss]; rfl⟩

/-- With `overlap >= size` the start offset never advances past a position
still inside the text, so no amount of fuel completes the loop. -/
lemma chunkGo_none {text : List Char} {size overlap : Nat} (h : size ≤ overlap) :
    ∀ fuel start, start < text.length →
      chunkGo text size overlap fuel start = none := by
  intro fuel
  induction fuel with
  | zero => intro start hs; simp [chunkGo, hs]
  | succ f ih =>
      intro start hs
      rw [chunkGo_step hs, ih (start + size - overlap) (by omega)]

deriving instance DecidableEq for Except

/-- Metadata attached to each vector record (lines 194-200). -/
structure Metadata where
  source : String
  chunk_index : Nat
  text : List Char
  file_type : String
  total_chunks : Nat
deriving DecidableEq

/-- A Pinecone vector record (lines 191-201); embedding values are modelled
abstractly as integer lists. -/
structure VectorRecord where
  id : String
  values : List Int
  metadata : Metadata
deriving DecidableEq

/-- Outward-visible actions of the pipeline: one `embed` per call to
`get_embedding`, one `upsert` per call to `pc_index.upsert` (carrying the
namespace argument of that call, which the source never passes, hence `none`),
and one `logError` per except-branch print at line 220. -/
inductive Effect where
  | embed (text : List Char)
  | upsert (ns : Option String) (vectors : List VectorRecord)
  | logError (key : String)
deriving DecidableEq

/-- One parsed S3 change record (lines 122-125). -/
structure S3Rec where
  bucket : String
  key : String
  eventName : String
deriving DecidableEq

/-- External collaborators: S3 object fetch, format-dispatched text
extraction, the OpenAI embedding call, and the Pinecone upsert outcome. -/
structure Ctx where
  fetch : String → String → Except String (List Nat)
  extract : List Nat → String → Except String (List Char)
  embed : List Char → Except String (List Int)
  upsertRes : List VectorRecord → Except String Unit

/-- `pc_namespace = os.getenv('PINECONE_NAMESPACE', '__default__')` (line 27). -/
def pc_namespace (getenv : String → Option String) : String :=
  (getenv "PINECONE_NAMESPACE").getD "__default__"

/-- The supported extensions of line 142. -/
def supportedExts : List String := [".txt", ".md", ".docx", ".pdf"]

/-- Python `str.lower()` (ASCII-faithful). -/
def strLower (s : String) : String := String.mk (s.toList.map Char.toLower)

/-- `pat in s` - Python substring containment. -/
def startsWith : List Char → List Char → Bool
  | _, [] => true
  | [], _ :: _ => false
  | c :: cs, p :: ps => c = p && startsWith cs ps

def containsSub (pat : List Char) (s : List Char) : Bool :=
  startsWith s pat ||
    match s with
    | [] => false
    | _ :: cs => containsSub pat cs

/-- The extension part of `os.path.splitext(key)` (posix rules): the suffix
from the last dot of the final path component, provided some non-dot
character of that component precedes the dot. -/
def splitextExt (key : String) : String :=
  let b := (key.toList.reverse.takeWhile (fun c => c ≠ '/')).reverse
  let r := b.reverse
  if r.any (fun c => c = '.') then
    let afterRev := r.takeWhile (fun c => c ≠ '.')
    let stemRev := (r.dropWhile (fun c => c ≠ '.')).tail
    if stemRev.any (fun c => c ≠ '.') then String.mk ('.' :: afterRev.reverse)
    else ""
  else ""

/-- The vector-building loop (lines 184-201): one `get_embedding` call per
chunk, then a record whose id is `f"{object_key}_chunk_{i}"` and whose
metadata stores the source locator, chunk index, first 1000 characters of the
chunk, file type, and the total (post-filter) chunk count. -/
def buildVectors (embed : List Char → Except String (List Int))
    (bucket key ext : String) (total : Nat) :
    List (List Char) → Nat → List Effect × Except String (List VectorRecord)
  | [], _ => ([], Except.ok [])
  | c :: cs, i =>
    match embed c with
    | Except.error e => ([Effect.embed c], Except.error e)
    | Except.ok v =>
      let r := buildVectors embed bucket key ext total cs (i+1)
      (Effect.embed c :: r.1,
        r.2.map (fun l =>
          { id := key ++ "_chunk_" ++ toString i
            values := v
            metadata :=
              { source := "s3://" ++ bucket ++ "/" ++ key
                chunk_index := i
                text := c.take 1000
                file_type := ext
                total_chunks := total } } :: l))

/-- The `try:` body of lines 137-217 for one S3 record: extension filter,
folder filter, S3 fetch, empty-file filter, extraction, blank-text filter,
chunking, embedding, and the single `pc_index.upsert(vectors=vectors)` call
(no namespace argument is passed).  `Except.ok false` is a filtered skip,
`Except.ok true` reached `processed_count += 1`. -/
def processS3RecordBody (ctx : Ctx) (r : S3Rec) : List Effect × Except String Bool :=
  if supportedExts.contains (strLower (splitextExt r.key)) = false then
    ([], Except.ok false)
  else if r.key.toList.getLast? = some '/' then ([], Except.ok false)
  else
    match ctx.fetch r.bucket r.key with
    | Except.error e => ([], Except.error e)
    | Except.ok bytes =>
      if bytes.length = 0 then ([], Except.ok false)
      else
        match ctx.extract bytes (splitextExt r.key) with
        | Except.error e => ([], Except.error e)
        | Except.ok text =>
          if text.all isSpace then ([], Except.ok false)
          else
            match chunk_text text 1000 200 with
            | none => ([], Except.error "chunk_text diverged")
            | some chunks =>
              match (buildVectors ctx.embed r.bucket r.key (splitextExt r.key)
                  chunks.length chunks 0).2 with
              | Except.error e =>
                  ((buildVectors ctx.embed r.bucket r.key (splitextExt r.key)
                      chunks.length chunks 0).1, Except.error e)
              | Except.ok vectors =>
                match ctx.upsertRes vectors with
                | Except.error e =>
                    ((buildVectors ctx.embed r.bucket r.key (splitextExt r.key)
                        chunks.length chunks 0).1
                      ++ [Effect.upsert none vectors], Except.error e)
                | Except.ok _ =>
                    ((buildVectors ctx.embed r.bucket r.key (splitextExt r.key)
                        chunks.length chunks 0).1
                      ++ [Effect.upsert none vectors], Except.ok true)

/-- One S3 record end to end (lines 122-225): the delete-event filter sits
before the `try:`; the `except` clause logs the offending key and re-raises. -/
def processS3Record (ctx : Ctx) (r : S3Rec) : List Effect × Except String Bool :=
  if containsSub ("Delete".toList) (r.eventName.toList) then ([], Except.ok false)
  else
    match processS3RecordBody ctx r with
    | (effs, Except.error e) => (effs ++ [Effect.logError r.key], Except.error e)
    | (effs, Except.ok b) => (effs, Except.ok b)

/-- The inner `for s3_record in s3_event['Records']` loop: a re-raised error
aborts, leaving the effects already performed. -/
def runRecords (ctx : Ctx) : List S3Rec → List Effect × Except String Nat
  | [] => ([], Except.ok 0)
  | r :: rs =>
    match (processS3Record ctx r).2 with
    | Except.error e => ((processS3Record ctx r).1, Except.error e)
    | Except.ok b =>
        ((processS3Record ctx r).1 ++ (runRecords ctx rs).1,
          (runRecords ctx rs).2.map (fun n => (if b then 1 else 0) + n))

/-- The outer `for sqs_record in event['Records']` loop. -/
def runSqs (ctx : Ctx) : List (List S3Rec) → List Effect × Except String Nat
  | [] => ([], Except.ok 0)
  | recs :: rest =>
    match (runRecords ctx recs).2 with
    | Except.error e => ((runRecords ctx recs).1, Except.error e)
    | Except.ok n =>
        ((runRecords ctx recs).1 ++ (runSqs ctx rest).1,
          (runSqs ctx rest).2.map (fun m => n + m))

/-- `lambda_handler` (lines 107-232): processes the batch and returns status
200 with the processed-count body, unless an error propagates. -/
def lambda_handler (ctx : Ctx) (event : List (List S3Rec)) :
    List Effect × Except String (Nat × String) :=
  ((runSqs ctx event).1, (runSqs ctx event).2.map (fun n =>
    (200, "\x22Successfully processed " ++ toString n ++ " files\x22")))

/-- Number of embedding-service calls in an effect trace. -/
def countEmbeds (effs : List Effect) : Nat :=
  effs.countP (fun e => match e with | Effect.embed _ => true | _ => false)

/-- The upsert calls (namespace argument and records) in an effect trace. -/
def upsertsOf (effs : List Effect) : List (Option String × List VectorRecord) :=
  effs.filterMap (fun e =>
    match e with | Effect.upsert ns vs => some (ns, vs) | _ => none)

/-- All vector ids written by the upserts of an effect trace. -/
def idsOf (effs : List Effect) : List String :=
  (upsertsOf effs).flatMap (fun p => p.2.map (fun v => v.id))

/-- A test double: fetch yields one byte, extraction yields `text`, every
embedding call returns `[0]`, upserts succeed. -/
def simpleCtx (text : List Char) : Ctx :=
  { fetch := fun _ _ => Except.ok [0]
    extract := fun _ _ => Except.ok text
    embed := fun _ => Except.ok [0]
    upsertRes := fun _ => Except.ok () }

def testRec : S3Rec :=
  { bucket := "bkt", key := "doc.txt", eventName := "ObjectCreated:Put" }

lemma windowStartsGo_props {len size overlap : Nat} (hso : overlap < size) :
    ∀ fuel start ss, windowStartsGo len size overlap fuel start = some ss →
      List.Chain' (fun a b => b = a + (size - overlap)) ss
      ∧ (ss = [] → len ≤ start)
      ∧ (∀ h, ss.head? = some h → h = start)
      ∧ (∀ L, ss.getLast? = some L → len ≤ L + (size - overlap)) := by
  intro fuel
  induction fuel with
  | zero =>
      intro start ss hss
      by_cases h : start < len
      · simp [windowStartsGo, h] at hss
      · rw [windowStartsGo_stop h] at hss
        injection hss with h2
        subst h2
        exact ⟨List.chain'_nil, fun _ => by omega, by simp, by simp⟩
  | succ f ih =>
      intro start ss hss
      by_cases h : start < len
      · rw [windowStartsGo_step h] at hss
        cases hrec : windowStartsGo len size overlap f (start + size - overlap) with
        | none => rw [hrec] at hss; simp at hss
        | some rest =>
            rw [hrec] at hss
            injection hss with h2
            subst h2
            obtain ⟨ch, hemp, hhead, hlast⟩ := ih (start + size - overlap) rest hrec
            refine ⟨?_, by simp, ?_, ?_⟩
            · rw [List.chain'_cons']
              refine ⟨?_, ch⟩
              intro b hb
              have hb2 := hhead b (Option.mem_def.mp hb)
              omega
            · intro x hx
              simp only [List.head?_cons, Option.some.injEq] at hx
              omega
            · intro L hL
              cases rest with
              | nil =>
                  simp only [List.getLast?_singleton, Option.some.injEq] at hL
                  have := hemp rfl
                  omega
              | cons a as =>
                  rw [List.getLast?_cons_cons] at hL
                  exact hlast L hL
      · rw [windowStartsGo_stop h] at hss
        injection hss with h2
        subst h2
        exact ⟨List.chain'_nil, fun _ => by omega, by simp, by simp⟩

/-- C7: for all text and `size > overlap > 0`, the window start offsets
visited by `chunk_text` (which determine the retained chunks, first conjunct)
are strictly increasing, consecutive starts differ by exactly
`size - overlap`, and the last window's end offset `start + size` reaches the
end of the text. -/
theorem window_starts_arithmetic {t : List Char} {size overlap : Nat} {ss : List Nat}
    (h1 : 0 < overlap) (h2 : overlap < size)
    (hs : windowStarts t.length size overlap = some ss) :
    chunk_text t size overlap =
      some ((ss.map (fun st => (t.drop st).take size)).filter (fun c => !isBlank c))
    ∧ List.Chain' (fun a b => b = a + (size - overlap)) ss
    ∧ List.Pairwise (· < ·) ss
    ∧ ∀ L, ss.getLast? = some L → t.length ≤ L + size := by
  obtain ⟨ch, hemp, hhead, hlast⟩ := windowStartsGo_props h2 (t.length + 1) 0 ss hs
  refine ⟨?_, ch, ?_, ?_⟩
  · rw [chunk_text_eq_windows, hs]
    rfl
  · have hlt : List.Chain' (· < ·) ss := ch.imp (fun a b hab => by omega)
    exact List.chain'_iff_pairwise.mp hlt
  · intro L hL
    have := hlast L hL
    omega

/-- Witness for `window_starts_arithmetic` at the text "ab" with
`size = 2`, `overlap = 1` (window starts 0 and 1). -/
theorem window_starts_arithmetic_witness :
    chunk_text ("ab".toList) 2 1 =
      some ((([0, 1] : List Nat).map
        (fun st => (("ab".toList).drop st).take 2)).filter (fun c => !isBlank c))
    ∧ List.Chain' (fun a b => b = a + (2 - 1)) ([0, 1] : List Nat)
    ∧ List.Pairwise (· < ·) ([0, 1] : List Nat)
    ∧ ∀ L, ([0, 1] : List Nat).getLast? = some L → ("ab".toList).length ≤ L + 2 :=
  @window_starts_arithmetic ("ab".toList) 2 1 [0, 1] (by decide) (by decide) (by decide)

/-- C3 (code bug): `chunk_text` performs no precondition check for
`overlap >= size`; on any non-empty text the loop never advances and never
completes, for any number of iterations (first two conjuncts model the
infinite silent loop — it neither raises nor returns), while on empty text it
returns the empty list normally instead of failing fast. -/
theorem chunk_overlap_ge_size_diverges :
    (∀ fuel, chunkGo ['a'] 1000 1000 fuel 0 = none)
    ∧ chunk_text ['a'] 1000 1000 = none
    ∧ chunk_text [] 1000 1000 = some [] := by
  refine ⟨fun fuel => chunkGo_none (by omega) fuel 0 (by simp), ?_, rfl⟩
  exact chunkGo_none (by omega) 2 0 (by simp)

/-- C8: the produced chunk sequence is empty iff the input text is empty or
every visited window's substring is whitespace-only. -/
theorem chunks_empty_iff_all_windows_blank {t : List Char} {size overlap : Nat}
    {chunks : List (List Char)} {ss : List Nat}
    (h1 : 0 < overlap) (h2 : overlap < size)
    (hc : chunk_text t size overlap = some chunks)
    (hw : windowStarts t.length size overlap = some ss) :
    chunks = [] ↔
      (t = [] ∨ ∀ st ∈ ss, isBlank ((t.drop st).take size) = true) := by
  rw [chunk_text_eq_windows, hw, Option.map_some'] at hc
  injection hc with hc
  subst hc
  constructor
  · intro hnil
    right
    intro st hst
    have hall := List.filter_eq_nil_iff.mp hnil
    have := hall _ (List.mem_map_of_mem _ hst)
    simpa using this
  · rintro (rfl | hall)
    · have h0 : windowStarts (List.length ([] : List Char)) size overlap = some [] := by
        unfold windowStarts
        exact windowStartsGo_stop (by simp)
      rw [h0] at hw
      injection hw with hw
      subst hw
      rfl
    · rw [List.filter_eq_nil_iff]
      intro c hcmem
      obtain ⟨st, hst, rfl⟩ := List.mem_map.mp hcmem
      simp [hall st hst]

/-- Witness for `chunks_empty_iff_all_windows_blank`: three spaces with
`size = 2`, `overlap = 1` give no chunks and all-blank windows. -/
theorem chunks_empty_iff_all_windows_blank_witness :
    (([] : List (List Char)) = [] ↔
      (([' ', ' ', ' '] : List Char) = []
        ∨ ∀ st ∈ ([0, 1, 2] : List Nat),
            isBlank ((([' ', ' ', ' '] : List Char).drop st).take 2) = true)) :=
  @chunks_empty_iff_all_windows_blank [' ', ' ', ' '] 2 1 [] [0, 1, 2]
    (by decide) (by decide) (by decide) (by decide)

/-- C10: every retained chunk has length at most `size` and contains a
non-whitespace character; with the default `size = 1000` the stored metadata
preview `chunk[:1000]` is therefore the whole chunk, never a truncation. -/
theorem chunk_length_le_size_and_nonblank {t : List Char} {size overlap : Nat}
    {chunks : List (List Char)}
    (h1 : 0 < overlap) (h2 : overlap < size)
    (hc : chunk_text t size overlap = some chunks) :
    ∀ c ∈ chunks, c.length ≤ size ∧ c.any (fun ch => !isSpace ch) = true
      ∧ (size = 1000 → c.take 1000 = c) := by
  obtain ⟨ss, hss⟩ := @windowStarts_some t.length size overlap h2
  rw [chunk_text_eq_windows, hss, Option.map_some'] at hc
  injection hc with hc
  subst hc
  intro c hcmem
  rw [List.mem_filter] at hcmem
  obtain ⟨hmem, hnb⟩ := hcmem
  obtain ⟨st, hst, rfl⟩ := List.mem_map.mp hmem
  have hlen : ((t.drop st).take size).length ≤ size := by
    rw [List.length_take]
    exact Nat.min_le_left _ _
  refine ⟨hlen, ?_, ?_⟩
  · have hblank : isBlank ((t.drop st).take size) = false := by
      simpa using hnb
    rw [isBlank, List.all_eq_false] at hblank
    obtain ⟨x, hx, hxf⟩ := hblank
    rw [List.any_eq_true]
    exact ⟨x, hx, by simp [Bool.not_eq_true] at hxf ⊢; exact hxf⟩
  · intro hsz
    subst hsz
    simp [List.take_take]

/-- Witness for `chunk_length_le_size_and_nonblank` at the text "ab" with
`size = 2`, `overlap = 1`, instantiated at the retained chunk "ab". -/
theorem chunk_length_le_size_and_nonblank_witness :
    (['a', 'b'] : List Char).length ≤ 2
    ∧ (['a', 'b'] : List Char).any (fun ch => !isSpace ch) = true
    ∧ (2 = 1000 → (['a', 'b'] : List Char).take 1000 = ['a', 'b']) :=
  @chunk_length_le_size_and_nonblank ("ab".toList) 2 1 [['a', 'b'], ['b']]
    (by decide) (by decide) (by decide) ['a', 'b'] (by decide)

/-- Every record built by `buildVectors` carries as `chunk_index` its
position in the chunk list (offset by the starting index `i`), the id
`key ++ "_chunk_" ++ index`, and the given `total` chunk count. -/
lemma buildVectors_ok {embed : List Char → Except String (List Int)}
    {bucket key ext : String} {total : Nat} :
    ∀ chunks i vs,
      (buildVectors embed bucket key ext total chunks i).2 = Except.ok vs →
      vs.length = chunks.length
      ∧ ∀ j (hj : j < vs.length),
          (vs.get ⟨j, hj⟩).metadata.chunk_index = i + j
          ∧ (vs.get ⟨j, hj⟩).id = key ++ "_chunk_" ++ toString (i + j)
          ∧ (vs.get ⟨j, hj⟩).metadata.total_chunks = total := by
  intro chunks
  induction chunks with
  | nil =>
      intro i vs hvs
      simp only [buildVectors] at hvs
      injection hvs with hvs
      subst hvs
      exact ⟨rfl, fun j hj => absurd hj (by simp)⟩
  | cons c cs ih =>
      intro i vs hvs
      cases hemb : embed c with
      | error e => simp [buildVectors, hemb] at hvs
      | ok v =>
          simp only [buildVectors, hemb] at hvs
          cases hrec : (buildVectors embed bucket key ext total cs (i+1)).2 with
          | error e => rw [hrec] at hvs; simp [Except.map] at hvs
          | ok l =>
              rw [hrec] at hvs
              simp only [Except.map] at hvs
              injection hvs with hvs
              subst hvs
              obtain ⟨hlen, hidx⟩ := ih (i+1) l hrec
              refine ⟨by simp [hlen], ?_⟩
              intro j hj
              cases j with
              | zero => simp
              | succ k =>
                  have hk : k < l.length := by
                    simp only [List.length_cons] at hj
                    omega
                  have hik := hidx k hk
                  have harith : i + (k + 1) = (i + 1) + k := by omega
                  simp only [List.get_cons_succ, harith]
                  exact hik

/-- The ids of the records built for a document, as a function of the
starting index. -/
lemma buildVectors_ids {embed : List Char → Except String (List Int)}
    {bucket key ext : String} {total : Nat} :
    ∀ chunks i vs,
      (buildVectors embed bucket key ext total chunks i).2 = Except.ok vs →
      vs.map (fun v => v.id)
        = (List.range chunks.length).map
            (fun j => key ++ "_chunk_" ++ toString (i + j)) := by
  intro chunks
  induction chunks with
  | nil =>
      intro i vs hvs
      simp only [buildVectors] at hvs
      injection hvs with hvs
      subst hvs
      simp
  | cons c cs ih =>
      intro i vs hvs
      cases hemb : embed c with
      | error e => simp [buildVectors, hemb] at hvs
      | ok v =>
          simp only [buildVectors, hemb] at hvs
          cases hrec : (buildVectors embed bucket key ext total cs (i+1)).2 with
          | error e => rw [hrec] at hvs; simp [Except.map] at hvs
          | ok l =>
              rw [hrec] at hvs
              simp only [Except.map] at hvs
              injection hvs with hvs
              subst hvs
              have hl := ih (i+1) l hrec
              have harith : ∀ a, i + 1 + a = i + (a + 1) := fun a => by omega
              simp only [harith] at hl
              simp only [List.map_cons, List.length_cons, List.range_succ_eq_map,
                List.map_map, Function.comp_def, Nat.succ_eq_add_one, Nat.add_zero,
                hl]

/-- C1 (amended): the vector record id is derived from the object key and
chunk index alone as `key ++ "_chunk_" ++ index` — deterministic in
`(key, index)`, and independent of the bucket (the `bucket` argument on the
left does not occur on the right). -/
theorem vector_ids_key_only {embed : List Char → Except String (List Int)}
    {bucket key ext : String} {total : Nat} {chunks : List (List Char)}
    {vs : List VectorRecord}
    (hb : (buildVectors embed bucket key ext total chunks 0).2 = Except.ok vs) :
    vs.map (fun v => v.id)
      = (List.range chunks.length).map (fun i => key ++ "_chunk_" ++ toString i) := by
  have := buildVectors_ids chunks 0 vs hb
  simpa using this

/-- Witness for `vector_ids_key_only` at one chunk of the key "k". -/
theorem vector_ids_key_only_witness :
    ([⟨"k_chunk_0", [1], ⟨"s3://b/k", 0, ['a'], ".txt", 1⟩⟩] :
        List VectorRecord).map (fun v => v.id)
      = (List.range ([['a']] : List (List Char)).length).map
          (fun i => "k" ++ "_chunk_" ++ toString i) :=
  @vector_ids_key_only (fun _ => Except.ok [1]) "b" "k" ".txt" 1 [['a']]
    [⟨"k_chunk_0", [1], ⟨"s3://b/k", 0, ['a'], ".txt", 1⟩⟩] (by decide)

/-- C1 counterexample: two documents with distinct (container, key) pairs —
same key "doc.txt" in buckets "b1" and "b2" — produce identical, non-empty
id sets, because the bucket is not part of the id. -/
theorem distinct_buckets_same_ids :
    (("b1", "doc.txt") ≠ (("b2" : String), ("doc.txt" : String)))
    ∧ idsOf (processS3Record (simpleCtx ("hello".toList))
        { bucket := "b1", key := "doc.txt", eventName := "ObjectCreated:Put" }).1
      = idsOf (processS3Record (simpleCtx ("hello".toList))
        { bucket := "b2", key := "doc.txt", eventName := "ObjectCreated:Put" }).1
    ∧ idsOf (processS3Record (simpleCtx ("hello".toList))
        { bucket := "b1", key := "doc.txt", eventName := "ObjectCreated:Put" }).1
      = ["doc.txt_chunk_0"] := by
  exact ⟨by decide, by decide, by decide⟩

/-- C6: the `chunk_index` recorded for each retained chunk is its position in
the retained chunk sequence, starting at 0 — contiguous and unique by
construction, with no gaps from dropped blank windows. -/
theorem chunk_index_is_position {embed : List Char → Except String (List Int)}
    {bucket key ext : String} {t : List Char} {size overlap : Nat}
    {chunks : List (List Char)} {vs : List VectorRecord}
    (h1 : 0 < overlap) (h2 : overlap < size)
    (hc : chunk_text t size overlap = some chunks)
    (hb : (buildVectors embed bucket key ext chunks.length chunks 0).2
            = Except.ok vs) :
    vs.length = chunks.length
    ∧ ∀ j (hj : j < vs.length), (vs.get ⟨j, hj⟩).metadata.chunk_index = j := by
  obtain ⟨hlen, hidx⟩ := buildVectors_ok chunks 0 vs hb
  exact ⟨hlen, fun j hj => by simpa using (hidx j hj).1⟩

/-- Witness for `chunk_index_is_position`: text "ab", `size = 2`,
`overlap = 1`, chunks "ab" and "b". -/
theorem chunk_index_is_position_witness :
    ([⟨"k_chunk_0", [1], ⟨"s3://b/k", 0, ['a', 'b'], ".txt", 2⟩⟩,
      ⟨"k_chunk_1", [1], ⟨"s3://b/k", 1, ['b'], ".txt", 2⟩⟩] :
        List VectorRecord).length = [['a', 'b'], ['b']].length
    ∧ ∀ j (hj : j < ([⟨"k_chunk_0", [1], ⟨"s3://b/k", 0, ['a', 'b'], ".txt", 2⟩⟩,
          ⟨"k_chunk_1", [1], ⟨"s3://b/k", 1, ['b'], ".txt", 2⟩⟩] :
            List VectorRecord).length),
        (([⟨"k_chunk_0", [1], ⟨"s3://b/k", 0, ['a', 'b'], ".txt", 2⟩⟩,
           ⟨"k_chunk_1", [1], ⟨"s3://b/k", 1, ['b'], ".txt", 2⟩⟩] :
             List VectorRecord).get ⟨j, hj⟩).metadata.chunk_index = j :=
  @chunk_index_is_position (fun _ => Except.ok [1]) "b" "k" ".txt"
    ("ab".toList) 2 1 [['a', 'b'], ['b']]
    [⟨"k_chunk_0", [1], ⟨"s3://b/k", 0, ['a', 'b'], ".txt", 2⟩⟩,
     ⟨"k_chunk_1", [1], ⟨"s3://b/k", 1, ['b'], ".txt", 2⟩⟩]
    (by decide) (by decide) (by decide) (by decide)

/-- A key ending in the path separator has an empty basename, hence an empty
`splitext` extension. -/
lemma splitextExt_trailing_slash {key : String}
    (h : key.toList.getLast? = some '/') :
    splitextExt key = "" := by
  unfold splitextExt
  have hrev : key.toList.reverse.head? = some '/' := by
    rw [List.head?_reverse]
    exact h
  cases hr : key.toList.reverse with
  | nil => rw [hr] at hrev; simp at hrev
  | cons a as =>
      rw [hr] at hrev
      simp only [List.head?_cons, Option.some.injEq] at hrev
      subst hrev
      simp [hr]

/-- C9: a deletion-type event, an object key ending in a path separator, or a
successfully fetched object of zero length each make the record a skip: the
effect trace is empty (zero embedding calls, zero upserts) and no error is
raised. -/
theorem filtered_records_no_effects {ctx : Ctx} {r : S3Rec}
    (h : containsSub ("Delete".toList) (r.eventName.toList) = true
       ∨ r.key.toList.getLast? = some '/'
       ∨ ctx.fetch r.bucket r.key = Except.ok []) :
    processS3Record ctx r = ([], Except.ok false) := by
  unfold processS3Record
  cases hd : containsSub ("Delete".toList) (r.eventName.toList)
  · rw [if_neg Bool.false_ne_true]
    have hbody : processS3RecordBody ctx r = ([], Except.ok false) := by
      rcases h with hd2 | hk | hf
      · rw [hd] at hd2
        cases hd2
      · have hext := splitextExt_trailing_slash hk
        have hsup : ¬ strLower "" ∈ supportedExts := by decide
        simp [processS3RecordBody, hext, hsup]
      · unfold processS3RecordBody
        by_cases c1 : supportedExts.contains (strLower (splitextExt r.key)) = false
        · rw [if_pos c1]
        · rw [if_neg c1]
          by_cases c2 : r.key.toList.getLast? = some '/'
          · rw [if_pos c2]
          · rw [if_neg c2, hf]
            rfl
    rw [hbody]
  · rw [if_pos rfl]

/-- Witness for `filtered_records_no_effects`: a deletion event is skipped
with no effects. -/
theorem filtered_records_no_effects_witness :
    processS3Record (simpleCtx ("hello".toList))
        { bucket := "b", key := "x.txt", eventName := "ObjectRemoved:Delete" }
      = ([], Except.ok false) :=
  filtered_records_no_effects (Or.inl (by decide))

/-- Every effect emitted by `buildVectors` is an embedding call. -/
lemma buildVectors_effects {embed : List Char → Except String (List Int)}
    {bucket key ext : String} {total : Nat} :
    ∀ chunks i, ∀ e ∈ (buildVectors embed bucket key ext total chunks i).1,
      ∃ c, e = Effect.embed c := by
  intro chunks
  induction chunks with
  | nil => intro i e he; simp [buildVectors] at he
  | cons c cs ih =>
      intro i e he
      cases hemb : embed c with
      | error e2 =>
          simp [buildVectors, hemb] at he
          exact ⟨c, he⟩
      | ok v =>
          simp only [buildVectors, hemb, List.mem_cons] at he
          rcases he with rfl | hmem
          · exact ⟨c, rfl⟩
          · exact ih (i+1) e hmem

/-- A record that reached `processed_count += 1` went through the success
branch of the `try:` body: its effects are the embedding calls followed by
the single upsert. -/
lemma body_ok_true {ctx : Ctx} {r : S3Rec}
    (h : (processS3RecordBody ctx r).2 = Except.ok true) :
    ∃ effs vs,
      processS3RecordBody ctx r = (effs ++ [Effect.upsert none vs], Except.ok true)
      ∧ ∀ e ∈ effs, ∃ c, e = Effect.embed c := by
  unfold processS3RecordBody at h ⊢
  by_cases c1 : supportedExts.contains (strLower (splitextExt r.key)) = false
  · rw [if_pos c1] at h
    simp at h
  · rw [if_neg c1] at h ⊢
    by_cases c2 : r.key.toList.getLast? = some '/'
    · rw [if_pos c2] at h
      simp at h
    · rw [if_neg c2] at h ⊢
      cases hfetch : ctx.fetch r.bucket r.key with
      | error e => rw [hfetch] at h; simp at h
      | ok bytes =>
          rw [hfetch] at h
          simp only [] at h ⊢
          by_cases c3 : bytes.length = 0
          · rw [if_pos c3] at h
            simp at h
          · rw [if_neg c3] at h ⊢
            cases hex : ctx.extract bytes (splitextExt r.key) with
            | error e => rw [hex] at h; simp at h
            | ok text =>
                rw [hex] at h
                simp only [] at h ⊢
                by_cases c4 : text.all isSpace = true
                · rw [if_pos c4] at h
                  simp at h
                · rw [if_neg c4] at h ⊢
                  cases hch : chunk_text text 1000 200 with
                  | none => rw [hch] at h; simp at h
                  | some chunks =>
                      rw [hch] at h
                      simp only [] at h ⊢
                      cases hbv : (buildVectors ctx.embed r.bucket r.key
                          (splitextExt r.key) chunks.length chunks 0).2 with
                      | error e => rw [hbv] at h; simp at h
                      | ok vectors =>
                          rw [hbv] at h
                          simp only [] at h ⊢
                          cases hup : ctx.upsertRes vectors with
                          | error e => rw [hup] at h; simp at h
                          | ok u =>
                              exact ⟨_, vectors, rfl,
                                fun e he => buildVectors_effects _ 0 e he⟩

/-- C2 (code bug): every successfully processed document issues exactly one
upsert call carrying its vector records, but the call passes no namespace
argument (`none`); the configured `pc_namespace` — here "prod-ns" via the
`PINECONE_NAMESPACE` environment variable — is read at startup and never
attached to the call. -/
theorem single_upsert_without_namespace :
    (∀ ctx r, (processS3Record ctx r).2 = Except.ok true →
      ∃ vs, upsertsOf (processS3Record ctx r).1 = [(none, vs)])
    ∧ pc_namespace
        (fun v => if v = "PINECONE_NAMESPACE" then some "prod-ns" else none)
        = "prod-ns"
    ∧ (none : Option String) ≠ some "prod-ns" := by
  refine ⟨?_, rfl, by simp⟩
  intro ctx r h
  unfold processS3Record at h ⊢
  cases hd : containsSub ("Delete".toList) (r.eventName.toList)
  · rw [hd] at h
    rw [if_neg Bool.false_ne_true] at h ⊢
    cases hb : processS3RecordBody ctx r with
    | mk effs res =>
        cases res with
        | error e2 => rw [hb] at h; simp at h
        | ok b =>
            rw [hb] at h
            simp only [] at h ⊢
            simp only [Except.ok.injEq] at h
            subst h
            obtain ⟨effs0, vs, heq, hall⟩ := body_ok_true (by rw [hb])
            rw [hb] at heq
            injection heq with heq1 heq2
            subst heq1
            refine ⟨vs, ?_⟩
            simp only [upsertsOf, List.filterMap_append]
            have h0 : List.filterMap (fun e =>
                match e with
                | Effect.upsert ns vs => some (ns, vs)
                | _ => none) effs0 = [] := by
              rw [List.filterMap_eq_nil_iff]
              intro e he
              obtain ⟨c, rfl⟩ := hall e he
              rfl
            rw [h0]
            rfl
  · rw [hd] at h
    rw [if_pos rfl] at h
    simp at h

/-- Witness for `single_upsert_without_namespace` on a processed "hello"
document. -/
theorem single_upsert_without_namespace_witness :
    ∃ vs, upsertsOf (processS3Record (simpleCtx ("hello".toList)) testRec).1
      = [((none : Option String), vs)] :=
  single_upsert_without_namespace.1 (simpleCtx ("hello".toList)) testRec (by decide)

/-- When a record's processing re-raises, the `except` clause first prints
the error with the offending key, so the record's effect trace ends with the
`logError` of its key. -/
lemma processS3Record_error_log {ctx : Ctx} {r : S3Rec} {e : String}
    (h : (processS3Record ctx r).2 = Except.error e) :
    (processS3Record ctx r).1.getLast? = some (Effect.logError r.key) := by
  unfold processS3Record at h ⊢
  cases hd : containsSub ("Delete".toList) (r.eventName.toList)
  · rw [hd] at h
    rw [if_neg Bool.false_ne_true] at h ⊢
    cases hb : processS3RecordBody ctx r with
    | mk effs res =>
        cases res with
        | error e2 =>
            rw [hb] at h
            simp only [] at h ⊢
            simp [List.getLast?_concat]
        | ok b => rw [hb] at h; simp at h
  · rw [hd] at h
    rw [if_pos rfl] at h
    simp at h

lemma runRecords_cons_error {ctx : Ctx} {r : S3Rec} (rs : List S3Rec) {e : String}
    (hp : (processS3Record ctx r).2 = Except.error e) :
    runRecords ctx (r :: rs) = ((processS3Record ctx r).1, Except.error e) := by
  simp only [runRecords, hp]

lemma runRecords_cons_ok {ctx : Ctx} {r : S3Rec} (rs : List S3Rec) {b : Bool}
    (hp : (processS3Record ctx r).2 = Except.ok b) :
    runRecords ctx (r :: rs) =
      ((processS3Record ctx r).1 ++ (runRecords ctx rs).1,
        (runRecords ctx rs).2.map (fun n => (if b then 1 else 0) + n)) := by
  simp only [runRecords, hp]

lemma runRecords_append_ok {ctx : Ctx} :
    ∀ (l1 : List S3Rec) {n : Nat}, (runRecords ctx l1).2 = Except.ok n →
      ∀ l2, runRecords ctx (l1 ++ l2) =
        ((runRecords ctx l1).1 ++ (runRecords ctx l2).1,
          (runRecords ctx l2).2.map (fun m => n + m)) := by
  intro l1
  induction l1 with
  | nil =>
      intro n h l2
      simp only [runRecords] at h
      injection h with h
      subst h
      have hmap : ∀ (x : Except String Nat), x.map (fun m => 0 + m) = x := by
        intro x
        cases x <;> simp [Except.map]
      rw [List.nil_append, hmap]
      simp [runRecords]
  | cons r rs ih =>
      intro n h l2
      cases hp : (processS3Record ctx r).2 with
      | error e =>
          rw [runRecords_cons_error rs hp] at h
          simp at h
      | ok b =>
          rw [runRecords_cons_ok rs hp] at h
          cases hq : (runRecords ctx rs).2 with
          | error e => rw [hq] at h; simp [Except.map] at h
          | ok m =>
              rw [hq] at h
              simp only [Except.map, Except.ok.injEq] at h
              subst h
              rw [List.cons_append, runRecords_cons_ok (rs ++ l2) hp, ih hq l2,
                runRecords_cons_ok rs hp]
              rw [Prod.ext_iff]
              constructor
              · simp [List.append_assoc]
              · cases hx : (runRecords ctx l2).2 <;> simp [Except.map]
                omega

lemma runSqs_cons_error {ctx : Ctx} {b : List S3Rec} (rest : List (List S3Rec))
    {e : String} (hp : (runRecords ctx b).2 = Except.error e) :
    runSqs ctx (b :: rest) = ((runRecords ctx b).1, Except.error e) := by
  simp only [runSqs, hp]

lemma runSqs_cons_ok {ctx : Ctx} {b : List S3Rec} (rest : List (List S3Rec))
    {n : Nat} (hp : (runRecords ctx b).2 = Except.ok n) :
    runSqs ctx (b :: rest) =
      ((runRecords ctx b).1 ++ (runSqs ctx rest).1,
        (runSqs ctx rest).2.map (fun m => n + m)) := by
  simp only [runSqs, hp]

lemma runSqs_append_ok {ctx : Ctx} :
    ∀ (l1 : List (List S3Rec)) {n : Nat}, (runSqs ctx l1).2 = Except.ok n →
      ∀ l2, runSqs ctx (l1 ++ l2) =
        ((runSqs ctx l1).1 ++ (runSqs ctx l2).1,
          (runSqs ctx l2).2.map (fun m => n + m)) := by
  intro l1
  induction l1 with
  | nil =>
      intro n h l2
      simp only [runSqs] at h
      injection h with h
      subst h
      have hmap : ∀ (x : Except String Nat), x.map (fun m => 0 + m) = x := by
        intro x
        cases x <;> simp [Except.map]
      rw [List.nil_append, hmap]
      simp [runSqs]
  | cons b bs ih =>
      intro n h l2
      cases hp : (runRecords ctx b).2 with
      | error e =>
          rw [runSqs_cons_error bs hp] at h
          simp at h
      | ok m1 =>
          rw [runSqs_cons_ok bs hp] at h
          cases hq : (runSqs ctx bs).2 with
          | error e => rw [hq] at h; simp [Except.map] at h
          | ok m2 =>
              rw [hq] at h
              simp only [Except.map, Except.ok.injEq] at h
              subst h
              rw [List.cons_append, runSqs_cons_ok (bs ++ l2) hp, ih hq l2,
                runSqs_cons_ok bs hp]
              rw [Prod.ext_iff]
              constructor
              · simp [List.append_assoc]
              · cases hx : (runSqs ctx l2).2 <;> simp [Except.map]
                omega

/-- C4: if processing of one record fails after batches `pre` and records
`bpre` succeeded, the handler logs the failing record's key as the final
effect of that record, re-raises the error as the batch outcome, performs
nothing for the remaining records (`bpost`, `post` contribute no effects),
and keeps every effect — including the upserts — of the records processed
earlier. -/
theorem batch_abort_on_error {ctx : Ctx} {pre : List (List S3Rec)}
    {bpre bpost : List S3Rec} {post : List (List S3Rec)} {r : S3Rec}
    {n m : Nat} {e : String}
    (hpre : (runSqs ctx pre).2 = Except.ok n)
    (hbpre : (runRecords ctx bpre).2 = Except.ok m)
    (hr : (processS3Record ctx r).2 = Except.error e) :
    lambda_handler ctx (pre ++ (bpre ++ r :: bpost) :: post)
      = ((runSqs ctx pre).1
          ++ ((runRecords ctx bpre).1 ++ (processS3Record ctx r).1),
         Except.error e)
    ∧ (processS3Record ctx r).1.getLast? = some (Effect.logError r.key) := by
  have h1 : runRecords ctx (r :: bpost)
      = ((processS3Record ctx r).1, Except.error e) :=
    runRecords_cons_error bpost hr
  have h2 : runRecords ctx (bpre ++ r :: bpost)
      = ((runRecords ctx bpre).1 ++ (processS3Record ctx r).1, Except.error e) := by
    rw [runRecords_append_ok bpre hbpre (r :: bpost), h1]
    rfl
  have h3 : runSqs ctx ((bpre ++ r :: bpost) :: post)
      = ((runRecords ctx bpre).1 ++ (processS3Record ctx r).1, Except.error e) := by
    rw [runSqs_cons_error post (by rw [h2]), h2]
  have h4 : runSqs ctx (pre ++ (bpre ++ r :: bpost) :: post)
      = ((runSqs ctx pre).1
          ++ ((runRecords ctx bpre).1 ++ (processS3Record ctx r).1),
         Except.error e) := by
    rw [runSqs_append_ok pre hpre _, h3]
    rfl
  refine ⟨?_, processS3Record_error_log hr⟩
  unfold lambda_handler
  rw [h4]
  rfl

/-- A context whose object fetch fails for the key "bad.txt". -/
def failCtx : Ctx :=
  { fetch := fun _ k => if k = "bad.txt" then Except.error "boom" else Except.ok [0]
    extract := fun _ _ => Except.ok ("x".toList)
    embed := fun _ => Except.ok [0]
    upsertRes := fun _ => Except.ok () }

/-- Witness for `batch_abort_on_error`: a one-record batch whose fetch fails. -/
theorem batch_abort_on_error_witness :
    lambda_handler failCtx ([] ++ ([] ++
        { bucket := "b", key := "bad.txt", eventName := "ObjectCreated:Put" } :: []) :: [])
      = ((runSqs failCtx []).1 ++ ((runRecords failCtx []).1
          ++ (processS3Record failCtx
                { bucket := "b", key := "bad.txt", eventName := "ObjectCreated:Put" }).1),
         Except.error "boom")
    ∧ (processS3Record failCtx
          { bucket := "b", key := "bad.txt", eventName := "ObjectCreated:Put" }).1.getLast?
        = some (Effect.logError "bad.txt") :=
  @batch_abort_on_error failCtx [] [] [] []
    { bucket := "b", key := "bad.txt", eventName := "ObjectCreated:Put" }
    0 0 "boom" (by decide) (by decide) (by decide)

/-- On a 1500-character text with default parameters the loop visits exactly
the windows [0,1000) and [800,1500), stopping at start offset 1600. -/
lemma chunk_text_1500 {t : List Char} (h : t.length = 1500)
    (h0 : isBlank (t.take 1000) = false)
    (h1 : isBlank ((t.drop 800).take 1000) = false) :
    chunk_text t 1000 200 = some [t.take 1000, (t.drop 800).take 1000] := by
  have hl0 : (0 : Nat) < t.length := by omega
  have hl800 : (800 : Nat) < t.length := by omega
  have hstop : ¬ (1600 : Nat) < t.length := by omega
  unfold chunk_text
  rw [chunkGo_step hl0]
  have e1 : 0 + 1000 - 200 = 800 := by norm_num
  rw [e1, h]
  have e2 : (1500 : Nat) = 1499 + 1 := by norm_num
  rw [e2, chunkGo_step hl800]
  have e3 : 800 + 1000 - 200 = 1600 := by norm_num
  rw [e3, chunkGo_stop hstop]
  simp [h0, h1]

set_option maxRecDepth 8000 in
/-- C5: one plain-text document whose extracted text has exactly 1500
characters (neither window blank) is processed successfully with exactly 2
embedding-service calls and one upsert of exactly 2 records, each carrying
`total_chunks = 2` — the post-filter count. -/
theorem pipeline_1500_chars {t : List Char} (h : t.length = 1500)
    (h0 : isBlank (t.take 1000) = false)
    (h1 : isBlank ((t.drop 800).take 1000) = false) :
    (processS3Record (simpleCtx t) testRec).2 = Except.ok true
    ∧ countEmbeds (processS3Record (simpleCtx t) testRec).1 = 2
    ∧ ∃ vs, upsertsOf (processS3Record (simpleCtx t) testRec).1 = [(none, vs)]
        ∧ vs.length = 2 ∧ ∀ v ∈ vs, v.metadata.total_chunks = 2 := by
  have hall : t.all isSpace = false := by
    cases hta : t.all isSpace
    · rfl
    · exfalso
      rw [isBlank] at h0
      have htk : (t.take 1000).all isSpace = true := by
        rw [List.all_eq_true] at hta ⊢
        exact fun x hx => hta x (List.take_subset _ _ hx)
      rw [htk] at h0
      cases h0
  have hchunk := chunk_text_1500 h h0 h1
  have e1 : containsSub ("Delete".toList) ("ObjectCreated:Put".toList) = false := by
    decide
  have e1a : containsSub ['D', 'e', 'l', 'e', 't', 'e']
      ['O', 'b', 'j', 'e', 'c', 't', 'C', 'r', 'e', 'a', 't', 'e', 'd', ':',
        'P', 'u', 't'] = false := by decide
  have e2 : splitextExt "doc.txt" = ".txt" := by decide
  have e3 : supportedExts.contains (strLower ".txt") = true := by decide
  have e3a : strLower ".txt" ∈ supportedExts := by decide
  have e4 : ¬ ("doc.txt".toList.getLast? = some '/') := by decide
  have hbody : processS3RecordBody (simpleCtx t) testRec
      = ([Effect.embed (t.take 1000), Effect.embed ((t.drop 800).take 1000),
          Effect.upsert none
            [⟨"doc.txt" ++ "_chunk_" ++ toString 0, [0],
              ⟨"s3://" ++ "bkt" ++ "/" ++ "doc.txt", 0, (t.take 1000).take 1000,
                ".txt", 2⟩⟩,
             ⟨"doc.txt" ++ "_chunk_" ++ toString 1, [0],
              ⟨"s3://" ++ "bkt" ++ "/" ++ "doc.txt", 1,
                ((t.drop 800).take 1000).take 1000, ".txt", 2⟩⟩]],
         Except.ok true) := by
    have e5 : processS3RecordBody (simpleCtx t) testRec
        = (if t.all isSpace = true then ([], Except.ok false)
           else
             match chunk_text t 1000 200 with
             | none => ([], Except.error "chunk_text diverged")
             | some chunks =>
               match (buildVectors (simpleCtx t).embed "bkt" "doc.txt" ".txt"
                   chunks.length chunks 0).2 with
               | Except.error e =>
                   ((buildVectors (simpleCtx t).embed "bkt" "doc.txt" ".txt"
                       chunks.length chunks 0).1, Except.error e)
               | Except.ok vectors =>
                 match (simpleCtx t).upsertRes vectors with
                 | Except.error e =>
                     ((buildVectors (simpleCtx t).embed "bkt" "doc.txt" ".txt"
                         chunks.length chunks 0).1
                       ++ [Effect.upsert none vectors], Except.error e)
                 | Except.ok u =>
                     ((buildVectors (simpleCtx t).embed "bkt" "doc.txt" ".txt"
                         chunks.length chunks 0).1
                       ++ [Effect.upsert none vectors], Except.ok true)) := rfl
    rw [e5, if_neg (show ¬ (t.all isSpace = true) from by simp [hall]), hchunk]
    rfl
  have hproc : processS3Record (simpleCtx t) testRec
      = ([Effect.embed (t.take 1000), Effect.embed ((t.drop 800).take 1000),
          Effect.upsert none
            [⟨"doc.txt" ++ "_chunk_" ++ toString 0, [0],
              ⟨"s3://" ++ "bkt" ++ "/" ++ "doc.txt", 0, (t.take 1000).take 1000,
                ".txt", 2⟩⟩,
             ⟨"doc.txt" ++ "_chunk_" ++ toString 1, [0],
              ⟨"s3://" ++ "bkt" ++ "/" ++ "doc.txt", 1,
                ((t.drop 800).take 1000).take 1000, ".txt", 2⟩⟩]],
         Except.ok true) := by
    have e6 : processS3Record (simpleCtx t) testRec
        = (match processS3RecordBody (simpleCtx t) testRec with
           | (effs, Except.error e) =>
               (effs ++ [Effect.logError "doc.txt"], Except.error e)
           | (effs, Except.ok b) => (effs, Except.ok b)) := rfl
    rw [e6, hbody]
  rw [hproc]
  refine ⟨rfl, rfl, _, rfl, rfl, ?_⟩
  intro v hv
  simp only [List.mem_cons, List.not_mem_nil, or_false] at hv
  rcases hv with rfl | rfl <;> rfl

set_option maxRecDepth 100000 in
/-- Witness for `pipeline_1500_chars` on 1500 letters 'a'. -/
theorem pipeline_1500_chars_witness :
    (processS3Record (simpleCtx (List.replicate 1500 'a')) testRec).2 = Except.ok true
    ∧ countEmbeds (processS3Record (simpleCtx (List.replicate 1500 'a')) testRec).1 = 2
    ∧ ∃ vs, upsertsOf
          (processS3Record (simpleCtx (List.replicate 1500 'a')) testRec).1
        = [(none, vs)]
        ∧ vs.length = 2 ∧ ∀ v ∈ vs, v.metadata.total_chunks = 2 :=
  pipeline_1500_chars (by simp) (by decide) (by decide)

end S3PineconeProcessor
